import Mathlib

set_option autoImplicit false

/-!
Verification of the batch worker of UnblockForWindows (src/main.py).

The development shallowly embeds the class `UnblockWorker` (src/main.py,
lines 66-129).  The worker thread owns two boolean flags, `_pause` and
`_cancel`, that the GUI thread may set at any time; the worker reads them
at specific program points.  Each flag is therefore modelled as an oracle
giving the value returned by its n-th read.  The external collaborators
(the filesystem queried through `os.path.isfile`, `os.path.isdir`,
`os.walk`, and the external unblock action invoked through
`subprocess.run`) are likewise modelled as oracles.  The pause busy-wait
loop (line 109-110) need not terminate, so the run function carries fuel
bounding the number of busy-wait iterations; the Boolean component of the
result records whether the run finished within the given fuel, and a run
that diverges is one that fails to finish for every fuel.

Numeric note: line 125 computes `percent = int((i + 1) / total * 100)`
with Python floats; it is modelled as the exact integer truncation
`(i + 1) * 100 / total` in natural-number arithmetic.  IEEE double
rounding can make the real program differ from the exact truncation by
one unit at isolated inputs; every concrete instance evaluated below is
one where the float result and the exact truncation agree.
-/

namespace Unblock

/-- Outcome of one `subprocess.run` invocation (src/main.py line 117-120):
the call either returns normally, carrying the exit code of the external
process (the code never inspects it and passes no check flag, so a
non-zero exit does not raise), or raises an exception rendered as a
message string. -/
inductive ActionResult where
  | ok (exitCode : Int)
  | raiseExc (msg : String)
  deriving DecidableEq

/-- Observable emissions of the worker: the four Qt signals of
`UnblockWorker` (src/main.py lines 67-70) plus, for bookkeeping, the
invocation of the external action with its argument list. -/
inductive Event where
  | output (s : String)
  | error (s : String)
  | progress (n : Nat)
  | action (args : List String)
  | finished
  deriving DecidableEq

/-- Abstract filesystem snapshot: `isFile` and `isDir` model
`os.path.isfile` and `os.path.isdir`; `walk p` models the flat sequence of
joined file paths `os.path.join(root, f)` produced, in traversal order, by
iterating `os.walk(p)` (src/main.py lines 95-100). -/
structure FS where
  isFile : String → Bool
  isDir : String → Bool
  walk : String → List String

/-- Environment of one run: `cancel n` (resp. `pause n`) is the value of
the flag `_cancel` (resp. `_pause`) at its n-th read by the worker, and
`action f` is the outcome of the `subprocess.run` invocation for file
`f`. -/
structure Env where
  cancel : Nat → Bool
  pause : Nat → Bool
  action : String → ActionResult

/-- Single-quote character, written by code point to keep the source free
of quote characters. -/
def qc : Char := Char.ofNat 39

/-- Single-quote as a one-character string. -/
def sq : String := String.singleton qc

/-- Status line emitted on cancellation (src/main.py lines 92 and 112). -/
def cancelledMsg : String := "❌ Operation cancelled."

/-- Status line emitted when the expanded list is empty (line 104). -/
def noFilesMsg : String := "No files to unblock."

/-- Status line emitted after the loop completes normally (line 128). -/
def completedMsg : String := "🎉 Completed all files!"

/-- Per-file success status line (src/main.py line 121). -/
def processedMsg (file : String) : String := "✅ Processed: " ++ file

/-- Per-file error status line (src/main.py line 123). -/
def errorLine (file msg : String) : String := "❌ Error: " ++ file ++ " -> " ++ msg

/-- PowerShell command string built by the f-string on line 118:
the file path is interpolated verbatim, unescaped, between two
single-quote characters. -/
def unblockCommand (file : String) : String :=
  "Unblock-File -LiteralPath " ++ sq ++ file ++ sq

/-- Argument list passed to `subprocess.run` (src/main.py line 118). -/
def unblockArgs (file : String) : List String :=
  ["powershell", "-NoProfile", "-Command", unblockCommand file]

/-- Expansion loop of `run` (src/main.py lines 88-100): walks the selected
paths in order, checking `_cancel` once per path (line 91); a file is
appended as-is, a directory contributes its walked files, anything else is
skipped.  Returns either the trace of the early cancelled exit (lines
92-94) or the accumulated file list together with the next cancel-read
index. -/
def expandLoop (env : Env) (fs : FS) :
    List String → Nat → List String → List Event ⊕ (List String × Nat)
  | [], cc, acc => Sum.inr (acc, cc)
  | p :: rest, cc, acc =>
    if env.cancel cc then
      Sum.inl [Event.output cancelledMsg, Event.finished]
    else
      expandLoop env fs rest (cc + 1)
        (if fs.isFile p then acc ++ [p]
         else if fs.isDir p then acc ++ fs.walk p
         else acc)

/-- Modelled from the spec (section 4.1 Path Expander): each plain file is
emitted as-is, each directory contributes every regular file found by the
recursive walk in traversal order, and any other path is silently
skipped, preserving selection order.  Used as the declarative reference
that the expansion loop of `run` is proved to implement. -/
def expandSpec (fs : FS) : List String → List String
  | [] => []
  | p :: rest =>
    (if fs.isFile p then [p]
     else if fs.isDir p then fs.walk p
     else []) ++ expandSpec fs rest

/-- Pause busy-wait of `run` (src/main.py lines 109-110): reads `_pause`
repeatedly, sleeping between reads, until a read returns false; it never
reads `_cancel`.  Fuel bounds the number of reads; `none` means the wait
was still spinning when the fuel ran out, `some pc` returns the next
pause-read index. -/
def pauseWait (env : Env) : Nat → Nat → Option Nat
  | 0, _ => none
  | fuel + 1, pc => if env.pause pc then pauseWait env fuel (pc + 1) else some (pc + 1)

/-- Events of one loop body for one file (src/main.py lines 116-123): the
action is invoked; if it returns normally (any exit code) the success
status is emitted, and if it raises the error status is emitted. -/
def stepEvents (env : Env) (file : String) : List Event :=
  match env.action file with
  | ActionResult.ok _ =>
    [Event.action (unblockArgs file), Event.output (processedMsg file)]
  | ActionResult.raiseExc e =>
    [Event.action (unblockArgs file), Event.error (errorLine file e)]

/-- Per-item loop of `run` (src/main.py lines 108-129): for each file,
wait out the pause flag, check `_cancel` once, invoke the action, emit the
status and the progress percentage `int((i + 1) / total * 100)` (modelled
as exact truncation), and continue; after the last item emit the
completion notice and the finished signal.  The Boolean is false when a
pause wait exhausted the fuel, in which case the trace holds the events
emitted before the hang. -/
def itemLoop (env : Env) (total : Nat) (fuel : Nat) :
    List String → Nat → Nat → Nat → List Event × Bool
  | [], _, _, _ => ([Event.output completedMsg, Event.finished], true)
  | file :: rest, i, cc, pc =>
    match pauseWait env fuel pc with
    | none => ([], false)
    | some pc' =>
      if env.cancel cc then
        ([Event.output cancelledMsg, Event.finished], true)
      else
        let next := itemLoop env total fuel rest (i + 1) (cc + 1) pc'
        (stepEvents env file ++ [Event.progress ((i + 1) * 100 / total)] ++ next.1,
         next.2)

/-- The method `UnblockWorker.run` (src/main.py lines 87-129): expansion
phase, empty-list check (lines 102-106), then the per-item loop.  Returns
the emitted trace and whether the run terminated within the fuel. -/
def runWorker (env : Env) (fs : FS) (paths : List String) (fuel : Nat) :
    List Event × Bool :=
  match expandLoop env fs paths 0 [] with
  | Sum.inl tr => (tr, true)
  | Sum.inr (files, cc) =>
    if files.length = 0 then ([Event.output noFilesMsg, Event.finished], true)
    else itemLoop env files.length fuel files 0 cc 0

/-- Progress values of a trace, in emission order. -/
def progressList (tr : List Event) : List Nat :=
  tr.filterMap fun e =>
    match e with
    | Event.progress n => some n
    | _ => none

/-- Argument lists of the action invocations of a trace, in order. -/
def actionsList (tr : List Event) : List (List String) :=
  tr.filterMap fun e =>
    match e with
    | Event.action a => some a
    | _ => none

/-- Strings of the `output_signal` emissions of a trace, in order. -/
def outputsList (tr : List Event) : List String :=
  tr.filterMap fun e =>
    match e with
    | Event.output s => some s
    | _ => none

/-- Strings of the `error_signal` emissions of a trace, in order. -/
def errorsList (tr : List Event) : List String :=
  tr.filterMap fun e =>
    match e with
    | Event.error s => some s
    | _ => none

/-- Boolean recogniser of the finished signal. -/
def isFinished (e : Event) : Bool :=
  match e with
  | Event.finished => true
  | _ => false

/-- Number of finished-signal emissions of a trace. -/
def finishedCount (tr : List Event) : Nat := (tr.filter isFinished).length

/-- Trace of a completed, never-cancelled item loop started at index `i`:
per file, the action events and the progress value, then the completion
notice and the finished signal. -/
def itemsTrace (env : Env) (total : Nat) : List String → Nat → List Event
  | [], _ => [Event.output completedMsg, Event.finished]
  | file :: rest, i =>
    stepEvents env file ++ [Event.progress ((i + 1) * 100 / total)] ++
      itemsTrace env total rest (i + 1)

/-- Content of the PowerShell single-quoted literal of a command string:
the characters strictly between the first single-quote and the next one,
as a PowerShell parser reads them. -/
def quotedArg (s : String) : String :=
  String.mk ((((s.toList.dropWhile fun c => c != qc).drop 1).takeWhile fun c => c != qc))

/-- Filesystem in which the given paths are the plain files and nothing
is a directory. -/
def fsFiles (l : List String) : FS where
  isFile := fun p => l.contains p
  isDir := fun _ => false
  walk := fun _ => []

/-- Environment with both flags permanently clear and an action that
always reports exit code 0. -/
def envPlain : Env where
  cancel := fun _ => false
  pause := fun _ => false
  action := fun _ => ActionResult.ok 0

/-- Environment whose action always returns normally with the non-zero
exit code 1, modelling a powershell process that reports failure. -/
def envExitOne : Env where
  cancel := fun _ => false
  pause := fun _ => false
  action := fun _ => ActionResult.ok 1

/-- Environment whose action raises on the file named b and succeeds on
every other file. -/
def envFail : Env where
  cancel := fun _ => false
  pause := fun _ => false
  action := fun f => if f == "b" then ActionResult.raiseExc "boom" else ActionResult.ok 0

/-- Environment of the pause-then-cancel scenario: the pause flag is set
and never cleared, and the cancel flag is clear at its first read (during
expansion) and set from the second read on. -/
def envPauseCancel : Env where
  cancel := fun n => decide (1 ≤ n)
  pause := fun _ => true
  action := fun _ => ActionResult.ok 0

/-- Environment whose cancel flag turns on at its m-th read, with the
pause flag never set. -/
def envCancelAfter (m : Nat) : Env where
  cancel := fun n => decide (m ≤ n)
  pause := fun _ => false
  action := fun _ => ActionResult.ok 0

/-- Filesystem holding a single empty directory named d and no files. -/
def fsEmptyDir : FS where
  isFile := fun _ => false
  isDir := fun p => p == "d"
  walk := fun _ => []

/-- Filesystem with one plain file, one directory containing two files,
and everything else non-existent. -/
def fsMix : FS where
  isFile := fun p => p == "a.txt"
  isDir := fun p => p == "dirX"
  walk := fun p => if p == "dirX" then ["dirX\\b.txt", "dirX\\c.txt"] else []

/-- Whenever the expansion loop runs to completion, the file list it
accumulated is exactly the declarative expansion appended to the incoming
accumulator, and it consumed one cancel read per selected path. -/
theorem expandLoop_inr {env : Env} {fs : FS} :
    ∀ {paths : List String} {cc : Nat} {acc files : List String} {cc' : Nat},
      expandLoop env fs paths cc acc = Sum.inr (files, cc') →
      files = acc ++ expandSpec fs paths ∧ cc' = cc + paths.length := by
  intro paths
  induction paths with
  | nil =>
    intro cc acc files cc' h
    simp only [expandLoop, Sum.inr.injEq, Prod.mk.injEq] at h
    simp [expandSpec, h.1.symm, h.2.symm]
  | cons p rest ih =>
    intro cc acc files cc' h
    simp only [expandLoop] at h
    by_cases hcc : env.cancel cc
    · simp [hcc] at h
    · simp only [hcc, Bool.false_eq_true, if_false] at h
      obtain ⟨h1, h2⟩ := ih h
      subst h1 h2
      refine ⟨?_, by simp only [List.length_cons]; omega⟩
      simp only [expandSpec]
      split
      · simp
      · split <;> simp

/-- When none of the cancel reads performed during expansion returns
true, the expansion loop completes and returns the declarative
expansion. -/
theorem expandLoop_no_cancel {env : Env} {fs : FS} :
    ∀ (paths : List String) (cc : Nat) (acc : List String),
      (∀ j, j < paths.length → env.cancel (cc + j) = false) →
      expandLoop env fs paths cc acc =
        Sum.inr (acc ++ expandSpec fs paths, cc + paths.length) := by
  intro paths
  induction paths with
  | nil => intro cc acc _; simp [expandLoop, expandSpec]
  | cons p rest ih =>
    intro cc acc h
    have h0 : env.cancel cc = false := by simpa using h 0 (by simp)
    have hrest : ∀ j, j < rest.length → env.cancel (cc + 1 + j) = false := by
      intro j hj
      have := h (j + 1) (by simpa using Nat.succ_lt_succ hj)
      simpa [Nat.add_assoc, Nat.add_comm 1 j] using this
    simp only [expandLoop, h0, Bool.false_eq_true, if_false]
    rw [ih (cc + 1) _ hrest]
    simp only [expandSpec, Sum.inr.injEq, Prod.mk.injEq, List.length_cons]
    constructor
    · split
      · simp
      · split <;> simp
    · omega

/-- An early inl exit of the expansion loop carries exactly the
cancellation notice followed by the finished signal. -/
theorem expandLoop_inl {env : Env} {fs : FS} :
    ∀ {paths : List String} {cc : Nat} {acc : List String} {tr : List Event},
      expandLoop env fs paths cc acc = Sum.inl tr →
      tr = [Event.output cancelledMsg, Event.finished] := by
  intro paths
  induction paths with
  | nil => intro cc acc tr h; simp [expandLoop] at h
  | cons p rest ih =>
    intro cc acc tr h
    simp only [expandLoop] at h
    by_cases hcc : env.cancel cc
    · simp only [hcc, if_true, Sum.inl.injEq] at h
      exact h.symm
    · simp only [hcc, Bool.false_eq_true, if_false] at h
      exact ih h

/-- A selection whose members are all either non-existent or empty
directories expands to the empty work list. -/
theorem expandSpec_eq_nil {fs : FS} :
    ∀ {paths : List String},
      (∀ p ∈ paths, fs.isFile p = false ∧ (fs.isDir p = true → fs.walk p = [])) →
      expandSpec fs paths = [] := by
  intro paths
  induction paths with
  | nil => intro _; simp [expandSpec]
  | cons p rest ih =>
    intro h
    obtain ⟨h1, h2⟩ := h p (by simp)
    simp only [expandSpec, h1, Bool.false_eq_true, if_false]
    rw [ih (fun q hq => h q (by simp [hq]))]
    split
    · simpa using h2 (by assumption)
    · simp

/-- Progress extraction distributes over trace concatenation. -/
theorem progressList_append (l₁ l₂ : List Event) :
    progressList (l₁ ++ l₂) = progressList l₁ ++ progressList l₂ := by
  simp [progressList, List.filterMap_append]

/-- Action extraction distributes over trace concatenation. -/
theorem actionsList_append (l₁ l₂ : List Event) :
    actionsList (l₁ ++ l₂) = actionsList l₁ ++ actionsList l₂ := by
  simp [actionsList, List.filterMap_append]

/-- Output extraction distributes over trace concatenation. -/
theorem outputsList_append (l₁ l₂ : List Event) :
    outputsList (l₁ ++ l₂) = outputsList l₁ ++ outputsList l₂ := by
  simp [outputsList, List.filterMap_append]

/-- Error extraction distributes over trace concatenation. -/
theorem errorsList_append (l₁ l₂ : List Event) :
    errorsList (l₁ ++ l₂) = errorsList l₁ ++ errorsList l₂ := by
  simp [errorsList, List.filterMap_append]

/-- Counting finished signals distributes over trace concatenation. -/
theorem finishedCount_append (l₁ l₂ : List Event) :
    finishedCount (l₁ ++ l₂) = finishedCount l₁ + finishedCount l₂ := by
  simp [finishedCount, List.filter_append]

/-- One loop body invokes the action exactly once, with the exact
argument list of line 118. -/
theorem actionsList_stepEvents (env : Env) (file : String) :
    actionsList (stepEvents env file) = [unblockArgs file] := by
  cases h : env.action file <;> simp [stepEvents, actionsList, h]

/-- One loop body emits no progress value of its own. -/
theorem progressList_stepEvents (env : Env) (file : String) :
    progressList (stepEvents env file) = [] := by
  cases h : env.action file <;> simp [stepEvents, progressList, h]

/-- One loop body emits the success status exactly when the action
returned normally. -/
theorem outputsList_stepEvents (env : Env) (file : String) :
    outputsList (stepEvents env file) =
      match env.action file with
      | ActionResult.ok _ => [processedMsg file]
      | ActionResult.raiseExc _ => [] := by
  cases h : env.action file <;> simp [stepEvents, outputsList, h]

/-- One loop body emits the error status exactly when the action
raised. -/
theorem errorsList_stepEvents (env : Env) (file : String) :
    errorsList (stepEvents env file) =
      match env.action file with
      | ActionResult.ok _ => []
      | ActionResult.raiseExc e => [errorLine file e] := by
  cases h : env.action file <;> simp [stepEvents, errorsList, h]

/-- One loop body never emits the finished signal. -/
theorem finishedCount_stepEvents (env : Env) (file : String) :
    finishedCount (stepEvents env file) = 0 := by
  cases h : env.action file <;> simp [stepEvents, finishedCount, isFinished, h]

/-- A completed item loop whose cancel reads all return false produces
exactly the reference trace. -/
theorem itemLoop_no_cancel {env : Env} (hc : ∀ n, env.cancel n = false)
    (total fuel : Nat) :
    ∀ (files : List String) (i cc pc : Nat) {tr : List Event},
      itemLoop env total fuel files i cc pc = (tr, true) →
      tr = itemsTrace env total files i := by
  intro files
  induction files with
  | nil =>
    intro i cc pc tr h
    simp only [itemLoop, Prod.mk.injEq] at h
    simp [itemsTrace, h.1.symm]
  | cons file rest ih =>
    intro i cc pc tr h
    simp only [itemLoop] at h
    cases hpw : pauseWait env fuel pc with
    | none => simp [hpw] at h
    | some pc' =>
      simp only [hpw, hc, Bool.false_eq_true, if_false] at h
      rcases hrec : itemLoop env total fuel rest (i + 1) (cc + 1) pc' with ⟨tr', b'⟩
      rw [hrec] at h
      injection h with h1 h2
      subst h2
      rw [← h1, itemsTrace, ih (i + 1) (cc + 1) pc' hrec]

/-- Progress values of the reference trace: the exact truncations of the
running percentage, one per remaining file. -/
theorem progressList_itemsTrace (env : Env) (total : Nat) :
    ∀ (files : List String) (i : Nat),
      progressList (itemsTrace env total files i) =
        (List.range' (i + 1) files.length).map fun j => j * 100 / total := by
  intro files
  induction files with
  | nil => intro i; simp [itemsTrace, progressList]
  | cons file rest ih =>
    intro i
    show progressList (stepEvents env file ++ [Event.progress ((i + 1) * 100 / total)] ++
      itemsTrace env total rest (i + 1)) = _
    rw [progressList_append, progressList_append, progressList_stepEvents, ih (i + 1)]
    simp [progressList, List.length_cons, List.range'_succ]

/-- Action invocations of the reference trace: exactly one per file, in
list order, with the exact argument list. -/
theorem actionsList_itemsTrace (env : Env) (total : Nat) :
    ∀ (files : List String) (i : Nat),
      actionsList (itemsTrace env total files i) = files.map unblockArgs := by
  intro files
  induction files with
  | nil => intro i; simp [itemsTrace, actionsList]
  | cons file rest ih =>
    intro i
    show actionsList (stepEvents env file ++ [Event.progress ((i + 1) * 100 / total)] ++
      itemsTrace env total rest (i + 1)) = _
    rw [actionsList_append, actionsList_append, actionsList_stepEvents, ih (i + 1)]
    simp [actionsList]

/-- Output lines of the reference trace: one success status per file
whose action returned normally, then the completion notice. -/
theorem outputsList_itemsTrace (env : Env) (total : Nat) :
    ∀ (files : List String) (i : Nat),
      outputsList (itemsTrace env total files i) =
        (files.filterMap fun f =>
          match env.action f with
          | ActionResult.ok _ => some (processedMsg f)
          | ActionResult.raiseExc _ => none) ++ [completedMsg] := by
  intro files
  induction files with
  | nil => intro i; simp [itemsTrace, outputsList]
  | cons file rest ih =>
    intro i
    show outputsList (stepEvents env file ++ [Event.progress ((i + 1) * 100 / total)] ++
      itemsTrace env total rest (i + 1)) = _
    rw [outputsList_append, outputsList_append, outputsList_stepEvents, ih (i + 1)]
    cases h : env.action file <;> simp [outputsList, h]

/-- Error lines of the reference trace: one per file whose action
raised, carrying the path and the failure detail. -/
theorem errorsList_itemsTrace (env : Env) (total : Nat) :
    ∀ (files : List String) (i : Nat),
      errorsList (itemsTrace env total files i) =
        files.filterMap fun f =>
          match env.action f with
          | ActionResult.ok _ => none
          | ActionResult.raiseExc e => some (errorLine f e) := by
  intro files
  induction files with
  | nil => intro i; simp [itemsTrace, errorsList]
  | cons file rest ih =>
    intro i
    show errorsList (stepEvents env file ++ [Event.progress ((i + 1) * 100 / total)] ++
      itemsTrace env total rest (i + 1)) = _
    rw [errorsList_append, errorsList_append, errorsList_stepEvents, ih (i + 1)]
    cases h : env.action file <;> simp [errorsList, h]

/-- The reference trace ends with the completion notice followed by the
finished signal. -/
theorem itemsTrace_ends (env : Env) (total : Nat) :
    ∀ (files : List String) (i : Nat),
      ∃ pre, itemsTrace env total files i =
        pre ++ [Event.output completedMsg, Event.finished] := by
  intro files
  induction files with
  | nil => intro i; exact ⟨[], rfl⟩
  | cons file rest ih =>
    intro i
    obtain ⟨pre, hp⟩ := ih (i + 1)
    refine ⟨stepEvents env file ++ [Event.progress ((i + 1) * 100 / total)] ++ pre, ?_⟩
    show stepEvents env file ++ [Event.progress ((i + 1) * 100 / total)] ++
      itemsTrace env total rest (i + 1) = _
    rw [hp]
    simp

/-- Every completed item loop, cancelled or not, emits the finished
signal exactly once, as its last event. -/
theorem itemLoop_finished {env : Env} {total fuel : Nat} :
    ∀ {files : List String} {i cc pc : Nat} {tr : List Event},
      itemLoop env total fuel files i cc pc = (tr, true) →
      finishedCount tr = 1 ∧ tr.getLast? = some Event.finished := by
  intro files
  induction files with
  | nil =>
    intro i cc pc tr h
    simp only [itemLoop, Prod.mk.injEq] at h
    rw [← h.1]
    exact ⟨rfl, rfl⟩
  | cons file rest ih =>
    intro i cc pc tr h
    simp only [itemLoop] at h
    cases hpw : pauseWait env fuel pc with
    | none => simp [hpw] at h
    | some pc' =>
      simp only [hpw] at h
      by_cases hcc : env.cancel cc
      · simp only [hcc, if_true] at h
        injection h with h1 _
        rw [← h1]
        exact ⟨rfl, rfl⟩
      · simp only [hcc, Bool.false_eq_true, if_false] at h
        rcases hrec : itemLoop env total fuel rest (i + 1) (cc + 1) pc' with ⟨tr', b'⟩
        rw [hrec] at h
        injection h with h1 h2
        subst h2
        obtain ⟨hc1, hc2⟩ := ih hrec
        constructor
        · rw [← h1, finishedCount_append, finishedCount_append,
            finishedCount_stepEvents, hc1]
          rfl
        · rw [← h1]
          have htr' : tr' ≠ [] := by
            intro hnil
            rw [hnil] at hc2
            simp at hc2
          rw [List.getLast?_append, hc2]
          rfl

/-- A completed item loop whose first true cancel read is the m-th one
(m below the number of files) invokes exactly the first m actions and
ends with the cancellation notice followed by the finished signal. -/
theorem itemLoop_cancelAt {env : Env} {total fuel : Nat} :
    ∀ (m : Nat) (files : List String) (i cc pc : Nat) {tr : List Event},
      m < files.length →
      (∀ j, j < m → env.cancel (cc + j) = false) →
      env.cancel (cc + m) = true →
      itemLoop env total fuel files i cc pc = (tr, true) →
      actionsList tr = (files.take m).map unblockArgs ∧
        ∃ pre, tr = pre ++ [Event.output cancelledMsg, Event.finished] := by
  intro m
  induction m with
  | zero =>
    intro files i cc pc tr hm _ hat h
    cases files with
    | nil => simp at hm
    | cons file rest =>
      simp only [itemLoop] at h
      cases hpw : pauseWait env fuel pc with
      | none => simp [hpw] at h
      | some pc' =>
        rw [Nat.add_zero] at hat
        simp only [hpw, hat, if_true] at h
        injection h with h1 _
        rw [← h1]
        exact ⟨rfl, ⟨[], rfl⟩⟩
  | succ m ih =>
    intro files i cc pc tr hm hbef hat h
    cases files with
    | nil => simp at hm
    | cons file rest =>
      simp only [itemLoop] at h
      cases hpw : pauseWait env fuel pc with
      | none => simp [hpw] at h
      | some pc' =>
        have h0 : env.cancel cc = false := by
          simpa using hbef 0 (Nat.succ_pos m)
        simp only [hpw, h0, Bool.false_eq_true, if_false] at h
        rcases hrec : itemLoop env total fuel rest (i + 1) (cc + 1) pc' with ⟨tr', b'⟩
        rw [hrec] at h
        injection h with h1 h2
        subst h2
        have hbef' : ∀ j, j < m → env.cancel (cc + 1 + j) = false := by
          intro j hj
          have := hbef (j + 1) (Nat.succ_lt_succ hj)
          rw [(by omega : cc + 1 + j = cc + (j + 1))]
          exact this
        have hat' : env.cancel (cc + 1 + m) = true := by
          rw [(by omega : cc + 1 + m = cc + (m + 1))]
          exact hat
        obtain ⟨ha, pre, hp⟩ :=
          ih rest (i + 1) (cc + 1) pc' (by simpa using hm) hbef' hat' hrec
        constructor
        · rw [← h1, actionsList_append, actionsList_append,
            actionsList_stepEvents, ha]
          simp [actionsList, List.take_succ_cons]
        · refine ⟨stepEvents env file ++
            [Event.progress ((i + 1) * 100 / total)] ++ pre, ?_⟩
          rw [← h1, hp]
          simp

/-- Whatever the environment does, every action invocation recorded by
the item loop carries the exact argument list for one of the files. -/
theorem itemLoop_actions_mem {env : Env} {total fuel : Nat} :
    ∀ (files : List String) (i cc pc : Nat) (a : List String),
      a ∈ actionsList (itemLoop env total fuel files i cc pc).1 →
      ∃ f, f ∈ files ∧ a = unblockArgs f := by
  intro files
  induction files with
  | nil => intro i cc pc a ha; simp [itemLoop, actionsList] at ha
  | cons file rest ih =>
    intro i cc pc a ha
    simp only [itemLoop] at ha
    cases hpw : pauseWait env fuel pc with
    | none => simp [hpw, actionsList] at ha
    | some pc' =>
      simp only [hpw] at ha
      by_cases hcc : env.cancel cc
      · simp [hcc, actionsList] at ha
      · simp only [hcc, Bool.false_eq_true, if_false] at ha
        rw [actionsList_append, actionsList_append, actionsList_stepEvents] at ha
        simp only [List.mem_append] at ha
        rcases ha with (ha | ha) | ha
        · simp only [List.mem_singleton] at ha
          exact ⟨file, by simp, ha⟩
        · simp [actionsList] at ha
        · obtain ⟨f, hf, hfa⟩ := ih (i + 1) (cc + 1) pc' a ha
          exact ⟨f, by simp [hf], hfa⟩

/-- A completed run whose cancel flag is never set emits exactly the
reference trace over the declaratively expanded work list. -/
theorem runWorker_no_cancel {env : Env} {fs : FS} {paths : List String} {fuel : Nat}
    (hc : ∀ n, env.cancel n = false) (hne : expandSpec fs paths ≠ []) {tr : List Event}
    (h : runWorker env fs paths fuel = (tr, true)) :
    tr = itemsTrace env (expandSpec fs paths).length (expandSpec fs paths) 0 := by
  unfold runWorker at h
  rw [expandLoop_no_cancel paths 0 [] (fun j _ => hc (0 + j))] at h
  simp only [List.nil_append] at h
  rw [if_neg (by simpa using hne)] at h
  exact itemLoop_no_cancel hc _ _ _ _ _ _ h

/-- Truncated running percentages are non-decreasing along any window of
consecutive indices. -/
theorem chain_le_div_range' (total : Nat) :
    ∀ (n s : Nat), List.Chain' (fun a b => a ≤ b)
      ((List.range' s n).map fun j => j * 100 / total) := by
  intro n
  induction n with
  | zero => intro s; simp
  | succ m ih =>
    intro s
    cases m with
    | zero => simp
    | succ k =>
      rw [List.range'_succ, List.map_cons, List.range'_succ, List.map_cons,
        List.chain'_cons]
      constructor
      · exact Nat.div_le_div_right (by omega)
      · have h := ih (s + 1)
        rw [List.range'_succ, List.map_cons] at h
        exact h

/-- The last truncated running percentage of a full pass is exactly
100. -/
theorem getLast_div_range' :
    ∀ (N : Nat), N ≠ 0 →
      ((List.range' 1 N).map fun j => j * 100 / N).getLast? = some 100 := by
  intro N hN
  obtain ⟨m, rfl⟩ := Nat.exists_eq_succ_of_ne_zero hN
  simp only [List.range'_concat, List.map_append, List.map_cons, List.map_nil,
    List.getLast?_concat]
  rw [(by omega : 1 + 1 * m = m + 1), Nat.mul_div_cancel_left 100 (Nat.succ_pos m)]

/-- A run whose cancel flag is never set and whose selection expands to
no files emits exactly the no-files notice and the finished signal. -/
theorem runWorker_empty {env : Env} {fs : FS} {paths : List String} {fuel : Nat}
    (hc : ∀ n, env.cancel n = false) (he : expandSpec fs paths = []) :
    runWorker env fs paths fuel = ([Event.output noFilesMsg, Event.finished], true) := by
  unfold runWorker
  rw [expandLoop_no_cancel paths 0 [] (fun j _ => hc (0 + j))]
  simp [he]

/-- The pause flag of the pause-then-cancel environment never clears, so
the busy-wait loop never exits, whatever the fuel. -/
theorem pauseWait_envPauseCancel :
    ∀ (fuel pc : Nat), pauseWait envPauseCancel fuel pc = none := by
  intro fuel
  induction fuel with
  | zero => intro pc; rfl
  | succ n ih => intro pc; exact ih (pc + 1)

/-- C8: expansion turns the ordered selection into the flat ordered
sequence in which each plain file is emitted as-is, each directory
contributes the files of its recursive walk in traversal order, and every
other path is silently skipped: when no cancel read fires during
expansion, the expansion loop of run returns exactly the declarative
expansion of the selection. -/
theorem expansion_implements_spec (env : Env) (fs : FS) (paths : List String)
    (hc : ∀ j, j < paths.length → env.cancel j = false) :
    expandLoop env fs paths 0 [] = Sum.inr (expandSpec fs paths, paths.length) := by
  have h := @expandLoop_no_cancel env fs paths 0 []
    (fun j hj => by simpa using hc j hj)
  simpa using h

/-- Witness for C8: a selection holding one plain file, one directory
with two walked files, and one non-existent path expands to the three
file paths in order, the ghost path silently skipped. -/
theorem expansion_implements_spec_witness :
    expandLoop envPlain fsMix ["a.txt", "dirX", "ghost"] 0 [] =
      Sum.inr (expandSpec fsMix ["a.txt", "dirX", "ghost"], 3) ∧
    expandSpec fsMix ["a.txt", "dirX", "ghost"] =
      ["a.txt", "dirX\\b.txt", "dirX\\c.txt"] :=
  ⟨expansion_implements_spec envPlain fsMix ["a.txt", "dirX", "ghost"]
    (fun _ _ => rfl), by decide⟩

/-- C7 counterexample: the empty selection and a non-empty selection
containing no files produce bit-for-bit identical runs, so the two
outcomes are not distinguishable from the emitted events; both emit the
no-files notice and the finished signal. -/
theorem empty_cases_same_trace :
    runWorker envPlain fsEmptyDir [] 1 = runWorker envPlain fsEmptyDir ["d"] 1 ∧
    runWorker envPlain fsEmptyDir ["d"] 1 =
      ([Event.output noFilesMsg, Event.finished], true) := by
  exact ⟨rfl, rfl⟩

/-- C7 amended: any two never-cancelled runs whose selections expand to
no files — in particular an empty selection and a non-empty selection of
empty directories — emit identical events, the no-files notice followed
by the finished signal. -/
theorem no_files_runs_identical (env : Env) (fs₁ fs₂ : FS)
    (paths₁ paths₂ : List String) (fuel₁ fuel₂ : Nat)
    (hc : ∀ n, env.cancel n = false)
    (h1 : expandSpec fs₁ paths₁ = []) (h2 : expandSpec fs₂ paths₂ = []) :
    runWorker env fs₁ paths₁ fuel₁ = runWorker env fs₂ paths₂ fuel₂ ∧
    runWorker env fs₁ paths₁ fuel₁ =
      ([Event.output noFilesMsg, Event.finished], true) :=
  ⟨(runWorker_empty hc h1).trans (runWorker_empty hc h2).symm,
    runWorker_empty hc h1⟩

/-- Witness for the amended C7: the empty selection versus a selection of
one empty directory and one ghost path. -/
theorem no_files_runs_identical_witness :
    runWorker envPlain fsEmptyDir ["d", "ghost"] 1 =
      runWorker envPlain (fsFiles []) [] 1 :=
  (no_files_runs_identical envPlain fsEmptyDir (fsFiles []) ["d", "ghost"] [] 1 1
    (fun _ => rfl) (by decide) (by decide)).1

/-- C6: a never-cancelled run over a selection of empty directories and
non-existent paths (or no paths at all) reports the no-files notice,
emits the terminal finished signal, invokes no per-item action, and emits
no progress update. -/
theorem empty_selection_no_actions (env : Env) (fs : FS) (paths : List String)
    (fuel : Nat) (hc : ∀ n, env.cancel n = false)
    (hempty : ∀ p ∈ paths, fs.isFile p = false ∧ (fs.isDir p = true → fs.walk p = [])) :
    runWorker env fs paths fuel = ([Event.output noFilesMsg, Event.finished], true) ∧
    actionsList (runWorker env fs paths fuel).1 = [] ∧
    progressList (runWorker env fs paths fuel).1 = [] := by
  have h := @runWorker_empty env fs paths fuel hc (expandSpec_eq_nil hempty)
  refine ⟨h, ?_, ?_⟩ <;> rw [h] <;> rfl

/-- Witness for C6: one empty directory plus one non-existent path. -/
theorem empty_selection_no_actions_witness :
    runWorker envPlain fsEmptyDir ["d", "ghost"] 5 =
      ([Event.output noFilesMsg, Event.finished], true) :=
  (empty_selection_no_actions envPlain fsEmptyDir ["d", "ghost"] 5 (fun _ => rfl)
    (by decide)).1

/-- C9: every run that terminates emits the finished signal exactly once,
as its last emission, on every exit path: cancellation during expansion,
empty work list, cancellation at an item boundary, and normal
completion. -/
theorem finished_exactly_once_last (env : Env) (fs : FS) (paths : List String)
    (fuel : Nat) (tr : List Event) (h : runWorker env fs paths fuel = (tr, true)) :
    finishedCount tr = 1 ∧ tr.getLast? = some Event.finished := by
  unfold runWorker at h
  split at h
  next tr0 heq =>
    injection h with h1 _
    rw [← h1, expandLoop_inl heq]
    exact ⟨rfl, rfl⟩
  next files cc heq =>
    by_cases hlen : files.length = 0
    · rw [if_pos hlen] at h
      injection h with h1 _
      rw [← h1]
      exact ⟨rfl, rfl⟩
    · rw [if_neg hlen] at h
      exact itemLoop_finished h

/-- Witness for C9: a completed three-file run. -/
theorem finished_exactly_once_last_witness :
    finishedCount (runWorker envPlain (fsFiles ["a", "b"]) ["a", "b"] 1).1 = 1 ∧
    (runWorker envPlain (fsFiles ["a", "b"]) ["a", "b"] 1).1.getLast? =
      some Event.finished :=
  finished_exactly_once_last envPlain (fsFiles ["a", "b"]) ["a", "b"] 1 _ rfl

/-- C4 (code defect): with the pause flag set and never cleared, and the
cancel flag set from its second read on (cancel requested while the run
is paused), the busy-wait of lines 109-110 never observes the cancel
flag, so the run emits nothing — neither the cancellation notice nor the
finished signal — and fails to terminate within any fuel bound. -/
theorem pause_wait_ignores_cancel (fuel : Nat) :
    envPauseCancel.cancel 1 = true ∧ envPauseCancel.pause fuel = true ∧
    runWorker envPauseCancel (fsFiles ["a"]) ["a"] fuel = ([], false) := by
  refine ⟨rfl, rfl, ?_⟩
  show itemLoop envPauseCancel 1 fuel ["a"] 0 1 0 = ([], false)
  simp [itemLoop, pauseWait_envPauseCancel]

/-- C1 counterexample: a three-file run with no failures emits the
progress sequence 33, 66, 100 — the integer truncations of the running
percentage — which differs from the sequence 33, 67, 100 the claim
states, under either rounding rule it offers. -/
theorem progress_truncation_counterexample :
    progressList (runWorker envPlain (fsFiles ["a", "b", "c"]) ["a", "b", "c"] 1).1 =
      [33, 66, 100] ∧
    ([33, 66, 100] : List Nat) ≠ [33, 67, 100] ∧
    ([33, 66, 100] : List Nat) ≠ [34, 67, 100] :=
  ⟨by decide, by decide, by decide⟩

/-- C1 amended: a run over a non-empty work list of size N that completes
normally with the cancel flag never set emits progress exactly N times,
one value per processed item, the i-th value being the truncation of
i / N * 100 to an integer; the sequence is non-decreasing and ends at
100. -/
theorem progress_sequence_truncated (env : Env) (fs : FS) (paths : List String)
    (fuel : Nat) (tr : List Event) (hc : ∀ n, env.cancel n = false)
    (hne : expandSpec fs paths ≠ [])
    (hrun : runWorker env fs paths fuel = (tr, true)) :
    progressList tr =
      (List.range' 1 (expandSpec fs paths).length).map
        (fun j => j * 100 / (expandSpec fs paths).length) ∧
    (progressList tr).length = (expandSpec fs paths).length ∧
    List.Chain' (fun a b => a ≤ b) (progressList tr) ∧
    (progressList tr).getLast? = some 100 := by
  have htr := runWorker_no_cancel hc hne hrun
  have hp : progressList tr =
      (List.range' 1 (expandSpec fs paths).length).map
        (fun j => j * 100 / (expandSpec fs paths).length) := by
    rw [htr, progressList_itemsTrace]
  refine ⟨hp, ?_, ?_, ?_⟩
  · rw [hp]; simp
  · rw [hp]; exact chain_le_div_range' _ _ _
  · rw [hp]
    exact getLast_div_range' _ (fun h0 => hne (List.length_eq_zero.mp h0))

/-- Witness for the amended C1: a completed two-file run. -/
theorem progress_sequence_truncated_witness :
    progressList (runWorker envPlain (fsFiles ["x", "y"]) ["x", "y"] 1).1 =
      (List.range' 1 (expandSpec (fsFiles ["x", "y"]) ["x", "y"]).length).map
        (fun j => j * 100 / (expandSpec (fsFiles ["x", "y"]) ["x", "y"]).length) :=
  (progress_sequence_truncated envPlain (fsFiles ["x", "y"]) ["x", "y"] 1 _
    (fun _ => rfl) (by decide) rfl).1

/-- C2: when the action at item k raises and the cancel flag is never
set, a completed run still invokes the action for every item of the work
list — in particular items k+1 onwards — and still ends with the
completion notice followed by the terminal finished signal. -/
theorem failure_does_not_abort_run (env : Env) (fs : FS) (paths : List String)
    (fuel : Nat) (tr : List Event) (k : Nat) (msg : String)
    (hc : ∀ n, env.cancel n = false)
    (hk : k < (expandSpec fs paths).length)
    (hfail : env.action ((expandSpec fs paths).get ⟨k, hk⟩) = ActionResult.raiseExc msg)
    (hrun : runWorker env fs paths fuel = (tr, true)) :
    actionsList tr = (expandSpec fs paths).map unblockArgs ∧
    ∃ pre, tr = pre ++ [Event.output completedMsg, Event.finished] := by
  have hne : expandSpec fs paths ≠ [] := by
    intro h0
    rw [h0] at hk
    simp at hk
  have htr := runWorker_no_cancel hc hne hrun
  constructor
  · rw [htr, actionsList_itemsTrace]
  · rw [htr]
    exact itemsTrace_ends env _ _ 0

/-- Witness for C2: a three-file run whose action raises on the middle
file still processes all three files and completes. -/
theorem failure_does_not_abort_run_witness :
    actionsList (runWorker envFail (fsFiles ["a", "b", "c"]) ["a", "b", "c"] 1).1 =
      (expandSpec (fsFiles ["a", "b", "c"]) ["a", "b", "c"]).map unblockArgs ∧
    ∃ pre, (runWorker envFail (fsFiles ["a", "b", "c"]) ["a", "b", "c"] 1).1 =
      pre ++ [Event.output completedMsg, Event.finished] :=
  failure_does_not_abort_run envFail (fsFiles ["a", "b", "c"]) ["a", "b", "c"] 1 _ 1
    "boom" (fun _ => rfl) (by decide) (by decide) rfl

/-- C3 counterexample: an action that returns normally with the non-zero
exit code 1 — a reported error outcome — still yields the per-file
success status and no error status, because the code passes no check flag
to the subprocess call and only the raising path is reported as an
error. -/
theorem nonzero_exit_reported_success :
    envExitOne.action "f" = ActionResult.ok 1 ∧
    outputsList (runWorker envExitOne (fsFiles ["f"]) ["f"] 1).1 =
      [processedMsg "f", completedMsg] ∧
    errorsList (runWorker envExitOne (fsFiles ["f"]) ["f"] 1).1 = [] :=
  ⟨rfl, by decide, by decide⟩

/-- C3 amended: in a completed never-cancelled run, a per-file error
status (carrying the path and the failure detail) is emitted exactly for
the items whose action raised, and the per-file success status is emitted
exactly for the items whose action returned normally, whatever exit code
it reported. -/
theorem error_status_iff_action_raises (env : Env) (fs : FS) (paths : List String)
    (fuel : Nat) (tr : List Event)
    (hc : ∀ n, env.cancel n = false) (hne : expandSpec fs paths ≠ [])
    (hrun : runWorker env fs paths fuel = (tr, true)) :
    errorsList tr = ((expandSpec fs paths).filterMap fun f =>
      match env.action f with
      | ActionResult.ok _ => none
      | ActionResult.raiseExc e => some (errorLine f e)) ∧
    outputsList tr = ((expandSpec fs paths).filterMap fun f =>
      match env.action f with
      | ActionResult.ok _ => some (processedMsg f)
      | ActionResult.raiseExc _ => none) ++ [completedMsg] := by
  have htr := runWorker_no_cancel hc hne hrun
  constructor
  · rw [htr, errorsList_itemsTrace]
  · rw [htr, outputsList_itemsTrace]

/-- Witness for the amended C3: the run whose action raises on the middle
file emits exactly one error line, for that file. -/
theorem error_status_iff_action_raises_witness :
    errorsList (runWorker envFail (fsFiles ["a", "b", "c"]) ["a", "b", "c"] 1).1 =
      ((expandSpec (fsFiles ["a", "b", "c"]) ["a", "b", "c"]).filterMap fun f =>
        match envFail.action f with
        | ActionResult.ok _ => none
        | ActionResult.raiseExc e => some (errorLine f e)) :=
  (error_status_iff_action_raises envFail (fsFiles ["a", "b", "c"]) ["a", "b", "c"] 1 _
    (fun _ => rfl) (by decide) rfl).1

/-- C5: if the cancel flag first reads true at the boundary of item k
(after the reads of the expansion phase, one per selected path), a
completed run invokes exactly the first k per-item actions, processes no
later item, and ends with the cancellation notice followed by the
finished signal. -/
theorem cancel_at_item_boundary (env : Env) (fs : FS) (paths : List String)
    (fuel : Nat) (tr : List Event) (k : Nat)
    (hk : k < (expandSpec fs paths).length)
    (hbefore : ∀ n, n < paths.length + k → env.cancel n = false)
    (hat : env.cancel (paths.length + k) = true)
    (hrun : runWorker env fs paths fuel = (tr, true)) :
    actionsList tr = ((expandSpec fs paths).take k).map unblockArgs ∧
    (actionsList tr).length = k ∧
    ∃ pre, tr = pre ++ [Event.output cancelledMsg, Event.finished] := by
  unfold runWorker at hrun
  rw [expandLoop_no_cancel paths 0 [] (fun j hj => hbefore (0 + j) (by omega))] at hrun
  simp only [List.nil_append] at hrun
  rw [if_neg (fun h0 => by rw [h0] at hk; exact Nat.not_lt_zero k hk)] at hrun
  obtain ⟨ha, pre, hp⟩ := itemLoop_cancelAt k (expandSpec fs paths) 0 (0 + paths.length) 0 hk
    (fun j hj => by
      rw [(by omega : 0 + paths.length + j = paths.length + j)]
      exact hbefore _ (by omega))
    (by
      rw [(by omega : 0 + paths.length + k = paths.length + k)]
      exact hat)
    hrun
  refine ⟨ha, ?_, pre, hp⟩
  rw [ha]
  simp [Nat.min_eq_left (Nat.le_of_lt hk)]

/-- Witness for C5: over three files, a cancel flag that turns on at its
fourth read (three expansion reads, then the boundary of item 1) stops
the run after exactly one action. -/
theorem cancel_at_item_boundary_witness :
    actionsList (runWorker (envCancelAfter 4) (fsFiles ["a", "b", "c"])
        ["a", "b", "c"] 1).1 =
      ((expandSpec (fsFiles ["a", "b", "c"]) ["a", "b", "c"]).take 1).map unblockArgs ∧
    (actionsList (runWorker (envCancelAfter 4) (fsFiles ["a", "b", "c"])
        ["a", "b", "c"] 1).1).length = 1 ∧
    ∃ pre, (runWorker (envCancelAfter 4) (fsFiles ["a", "b", "c"])
        ["a", "b", "c"] 1).1 =
      pre ++ [Event.output cancelledMsg, Event.finished] :=
  cancel_at_item_boundary (envCancelAfter 4) (fsFiles ["a", "b", "c"])
    ["a", "b", "c"] 1 _ 1 (by decide) (by decide) (by decide) rfl

/-- C10: every action invocation of any run carries exactly the argument
list powershell, -NoProfile, -Command, and the command string that splices
the file path verbatim and unescaped between two single-quote characters;
for a path containing a single-quote character the quoted literal a
PowerShell parser reads back is cut short at that character, while a
quote-free path is read back whole. -/
theorem action_args_exact_and_quote_broken (env : Env) (fs : FS) (paths : List String)
    (fuel : Nat) (tr : List Event) (b : Bool)
    (hrun : runWorker env fs paths fuel = (tr, b)) :
    (∀ a, a ∈ actionsList tr → ∃ f, f ∈ expandSpec fs paths ∧
      a = ["powershell", "-NoProfile", "-Command",
        "Unblock-File -LiteralPath " ++ sq ++ f ++ sq]) ∧
    quotedArg (unblockCommand ("C:\\it" ++ sq ++ "s.txt")) = "C:\\it" ∧
    quotedArg (unblockCommand "C:\\plain.txt") = "C:\\plain.txt" := by
  refine ⟨?_, by decide, by decide⟩
  intro a ha
  unfold runWorker at hrun
  split at hrun
  next tr0 heq =>
    injection hrun with h1 _
    rw [← h1, expandLoop_inl heq] at ha
    simp [actionsList] at ha
  next files cc heq =>
    obtain ⟨hfiles, _⟩ := expandLoop_inr heq
    simp only [List.nil_append] at hfiles
    by_cases hlen : files.length = 0
    · rw [if_pos hlen] at hrun
      injection hrun with h1 _
      rw [← h1] at ha
      simp [actionsList] at ha
    · rw [if_neg hlen] at hrun
      obtain ⟨f, hf, hfa⟩ := itemLoop_actions_mem files 0 cc 0 a (by rw [hrun]; exact ha)
      rw [hfiles] at hf
      exact ⟨f, hf, hfa⟩

/-- Witness for C10: the quoted literal of the command built for a path
holding a single-quote character stops at that character. -/
theorem action_args_exact_and_quote_broken_witness :
    quotedArg (unblockCommand ("C:\\it" ++ sq ++ "s.txt")) = "C:\\it" :=
  (action_args_exact_and_quote_broken envPlain (fsFiles []) [] 1 _ _ rfl).2.1

end Unblock
